import Mathlib

/-!
Verification development for the ZS3 loss library (src/utils/loss.py).

The Python file defines a collection of loss functions over PyTorch tensors:
SegmentationLosses (CrossEntropyLoss / CrossEntropyLossFinetune / FocalLoss and
the build_loss factory), EntropyLoss, EntropyLossMasked, GMMNLoss, MSELoss,
MSELoss_bis, CosineLoss and CosineLoss_bis.

Embedding conventions:
- a rank-4 tensor of shape (n, c, h, w) is a function
  Fin n → Fin c → Fin h → Fin w → ℝ; a rank-3 integer label tensor is
  Fin n → Fin h → Fin w → ℕ;
- tensor arithmetic is exact real arithmetic;
- a float division whose divisor is not guarded against zero by the source and
  is zero exactly in the degenerate cases the specification discusses is
  modelled by floatDiv, which returns none on a zero divisor (the non-finite
  value float division by zero would produce); generic per-element
  normalisations whose divisors are not the subject of any specified behaviour
  stay plain real division;
- torch.cat along the batch axis is Fin.append; reductions (torch.sum, .mean)
  are finite sums over the index types.
-/

noncomputable section

/-- Division as the source's float division on the divisors the source leaves
unguarded: none models the non-finite result of dividing by zero. -/
def floatDiv (x y : ℝ) : Option ℝ := if y = 0 then none else some (x / y)

/-- F.softmax along the channel dimension of one pixel: exp-normalised scores. -/
def softmax {c : ℕ} (f : Fin c → ℝ) (i : Fin c) : ℝ :=
  Real.exp (f i) / ∑ j, Real.exp (f j)

/-- torch.log2 and np.log2: base-2 logarithm. -/
def log2 (x : ℝ) : ℝ := Real.log x / Real.log 2

/-- EntropyLoss (src/utils/loss.py lines 75-84): per-pixel channel softmax,
base-2 Shannon entropy with a 1e-30 floor added before the logarithm, summed
over all elements and divided by n * h * w * np.log2 c. -/
def EntropyLoss {n c h w : ℕ} (v : Fin n → Fin c → Fin h → Fin w → ℝ) : ℝ :=
  -(∑ i, ∑ ch, ∑ j, ∑ k,
      softmax (fun q => v i q j k) ch *
        log2 (softmax (fun q => v i q j k) ch + 1e-30)) /
    ((n : ℝ) * h * w * log2 c)

/-- Number of positions selected by a boolean (batch, h, w) mask:
mask.sum() on the tensor v.permute(0,2,3,1) is indexed by. -/
def maskedCount {n h w : ℕ} (mask : Fin n → Fin h → Fin w → Bool) : ℕ :=
  ∑ i, ∑ j, ∑ k, if mask i j k then 1 else 0

/-- EntropyLossMasked (src/utils/loss.py lines 87-98): v is permuted to
channel-last and indexed by the boolean mask, giving one row per selected
(batch, h, w) position; per-row softmax, the same floored base-2 entropy sum,
divided by (number of selected rows) * np.log2 c.  The division is the
unguarded one discussed by the specification, hence floatDiv. -/
def EntropyLossMasked {n c h w : ℕ} (v : Fin n → Fin c → Fin h → Fin w → ℝ)
    (mask : Fin n → Fin h → Fin w → Bool) : Option ℝ :=
  floatDiv
    (-(∑ i, ∑ j, ∑ k,
        if mask i j k then
          ∑ ch, softmax (fun q => v i q j k) ch *
            log2 (softmax (fun q => v i q j k) ch + 1e-30)
        else 0))
    ((maskedCount mask : ℝ) * log2 c)

/-- Configuration of the SegmentationLosses class (src/utils/loss.py line 8):
weight=None or a per-class weight tensor, size_average, batch_average,
ignore_index (default 255), cuda.  The cuda flag only controls device
residency and has no numeric effect. -/
structure SegmentationLosses (c : ℕ) where
  weight : Option (Fin c → ℝ)
  size_average : Bool
  batch_average : Bool
  ignore_index : ℕ
  cuda : Bool

/-- nn.CrossEntropyLoss(weight, ignore_index, size_average) applied to a rank-4
logit tensor and an integer target: per non-ignored pixel the weighted negative
log of the softmax probability of the target class; size_average=True divides
the weighted sum by the total weight of the counted pixels, size_average=False
returns the plain sum.  Pixels whose label equals ignore_index contribute
nothing to either sum.  (Labels outside [0, c) other than the ignore index are
a caller error in the source; they contribute 0 here.) -/
def nnCrossEntropy {n c h w : ℕ} (weight : Option (Fin c → ℝ))
    (ignore_index : ℕ) (size_average : Bool)
    (logit : Fin n → Fin c → Fin h → Fin w → ℝ)
    (target : Fin n → Fin h → Fin w → ℕ) : ℝ :=
  let wt : Fin c → ℝ := Option.getD weight (fun _ => 1)
  let lossSum : ℝ :=
    ∑ i, ∑ j, ∑ k,
      if target i j k = ignore_index then 0
      else if hlt : target i j k < c then
        wt ⟨target i j k, hlt⟩ *
          (-Real.log (softmax (fun q => logit i q j k) ⟨target i j k, hlt⟩))
      else 0
  let weightSum : ℝ :=
    ∑ i, ∑ j, ∑ k,
      if target i j k = ignore_index then 0
      else if hlt : target i j k < c then wt ⟨target i j k, hlt⟩
      else 0
  if size_average then lossSum / weightSum else lossSum

namespace SegmentationLosses

/-- SegmentationLosses.CrossEntropyLoss (lines 26-38): the criterion built from
the configured weight, ignore_index and size_average, optionally divided by the
batch size n when batch_average is set. -/
def CrossEntropyLoss {c : ℕ} (L : SegmentationLosses c) {n h w : ℕ}
    (logit : Fin n → Fin c → Fin h → Fin w → ℝ)
    (target : Fin n → Fin h → Fin w → ℕ) : ℝ :=
  let loss := nnCrossEntropy L.weight L.ignore_index L.size_average logit target
  if L.batch_average then loss / n else loss

/-- SegmentationLosses.CrossEntropyLossFinetune (lines 41-51): same criterion
but ignoring the configured class weights; divides by the batch size read from
the logit tensor (logit.shape[0] = n). -/
def CrossEntropyLossFinetune {c : ℕ} (L : SegmentationLosses c) {n h w : ℕ}
    (logit : Fin n → Fin c → Fin h → Fin w → ℝ)
    (target : Fin n → Fin h → Fin w → ℕ) : ℝ :=
  let loss := nnCrossEntropy none L.ignore_index L.size_average logit target
  if L.batch_average then loss / n else loss

/-- SegmentationLosses.FocalLoss (lines 54-70): logpt = -criterion;
pt = exp(logpt); alpha (when not None) multiplies logpt; the loss is
-((1 - pt) ** gamma) * logpt, optionally divided by the batch size. -/
def FocalLoss {c : ℕ} (L : SegmentationLosses c) {n h w : ℕ}
    (logit : Fin n → Fin c → Fin h → Fin w → ℝ)
    (target : Fin n → Fin h → Fin w → ℕ) (gamma : ℕ) (alpha : Option ℝ) : ℝ :=
  let logpt0 :=
    -nnCrossEntropy L.weight L.ignore_index L.size_average logit target
  let pt := Real.exp logpt0
  let logpt := match alpha with
    | some a => a * logpt0
    | none => logpt0
  let loss := -((1 - pt) ^ gamma) * logpt
  if L.batch_average then loss / n else loss

/-- The three bound methods SegmentationLosses.build_loss can hand back. -/
inductive LossFn where
  | ce
  | focal
  | ce_finetune
deriving DecidableEq

/-- SegmentationLosses.build_loss (lines 15-24): mode 'ce' selects the
CrossEntropyLoss method, 'focal' the FocalLoss method, 'ce_finetune' the
CrossEntropyLossFinetune method; any other mode raises NotImplementedError,
modelled by none. -/
def build_loss (mode : String) : Option LossFn :=
  if mode = "ce" then some LossFn.ce
  else if mode = "focal" then some LossFn.focal
  else if mode = "ce_finetune" then some LossFn.ce_finetune
  else none

/-- The loss function a LossFn tag denotes, applied as the factory's caller
applies it: two tensor arguments, so FocalLoss runs with its declared defaults
gamma=2, alpha=0.5. -/
def applyLoss {c : ℕ} (f : LossFn) (L : SegmentationLosses c) {n h w : ℕ}
    (logit : Fin n → Fin c → Fin h → Fin w → ℝ)
    (target : Fin n → Fin h → Fin w → ℕ) : ℝ :=
  match f with
  | LossFn.ce => CrossEntropyLoss L logit target
  | LossFn.focal => FocalLoss L logit target 2 (some 0.5)
  | LossFn.ce_finetune => CrossEntropyLossFinetune L logit target

end SegmentationLosses

/-- Configuration of the GMMNLoss class (line 103): the Gaussian-kernel
bandwidth list sigma (default [2, 5, 10, 20, 40, 80]) and the cuda flag. -/
structure GMMNLoss where
  sigma : List ℝ
  cuda : Bool

namespace GMMNLoss

/-- GMMNLoss.get_scale_matrix (lines 111-116): the column vector
torch.cat((ones(N,1)/N, -ones(M,1)/M), 0), of length N + M, given by its entry
at each position: +1/N at positions below N, -1/M at the remaining positions. -/
def get_scale_matrix (M N : ℕ) (i : ℕ) : ℚ :=
  if i < N then 1 / (N : ℚ) else -(1 / (M : ℚ))

/-- The combined sample matrix X = torch.cat((gen_samples, x), 0) of
moment_loss (line 119): the M generated rows first, then the N real rows. -/
def combinedX {α : Type} {M N : ℕ} (gen_samples : Fin M → α) (x : Fin N → α) :
    Fin (M + N) → α :=
  Fin.append gen_samples x

/-- The matrix exp = XX - 0.5*X2 - 0.5*X2.t() of moment_loss (lines 120-122):
entry (a, b) is the Gram entry <X_a, X_b> minus half the squared norms of
rows a and b. -/
def expScore {M N d : ℕ} (gen_samples : Fin M → Fin d → ℝ)
    (x : Fin N → Fin d → ℝ) (a b : Fin (M + N)) : ℝ :=
  (∑ t, combinedX gen_samples x a t * combinedX gen_samples x b t)
    - 0.5 * (∑ t, combinedX gen_samples x a t * combinedX gen_samples x a t)
    - 0.5 * (∑ t, combinedX gen_samples x b t * combinedX gen_samples x b t)

/-- The matrix S = s * s.t() of moment_loss (lines 125-126), with
s = get_scale_matrix(M, N): entry (a, b) is s_a * s_b. -/
def scaleS (M N : ℕ) (a b : Fin (M + N)) : ℝ :=
  ((get_scale_matrix M N a : ℚ) : ℝ) * ((get_scale_matrix M N b : ℚ) : ℝ)

/-- GMMNLoss.moment_loss (lines 118-134): for each bandwidth v in sigma,
accumulate sum(S * exp(exp / v)); the result is the square root of the
accumulated sum. -/
def moment_loss (G : GMMNLoss) {M N d : ℕ} (gen_samples : Fin M → Fin d → ℝ)
    (x : Fin N → Fin d → ℝ) : ℝ :=
  Real.sqrt
    ((G.sigma.map (fun v =>
        ∑ a, ∑ b,
          scaleS M N a b * Real.exp (expScore gen_samples x a b / v))).sum)

end GMMNLoss

/-- The pixel mask shared by the four regression losses: mask = (target != 255)
over the (n, h, w) label tensor, and mask_size = mask.sum(), the number of
non-ignored pixels. -/
def maskSize {n h w : ℕ} (target : Fin n → Fin h → Fin w → ℕ) : ℕ :=
  ∑ i, ∑ j, ∑ k, if target i j k ≠ 255 then 1 else 0

namespace MSELoss

/-- MSELoss.mse_loss (lines 143-163): the pixel mask is repeated across the c
channels (mask_tensor), F.mse_loss(..., size_average=False) sums the squared
differences over every masked (pixel, channel) element, and the sum is divided
by mask_size, the raw number of masked pixels.  That division is the one the
specification calls unguarded, hence floatDiv. -/
def mse_loss {n c h w : ℕ} (score : Fin n → Fin c → Fin h → Fin w → ℝ)
    (target : Fin n → Fin h → Fin w → ℕ)
    (target_embed : Fin n → Fin c → Fin h → Fin w → ℝ) : Option ℝ :=
  floatDiv
    (∑ i, ∑ ch, ∑ j, ∑ k,
      if target i j k ≠ 255 then
        (score i ch j k - target_embed i ch j k) ^ 2
      else 0)
    ((maskSize target : ℝ))

end MSELoss

namespace MSELoss_bis

/-- MSELoss_bis.mse_loss (lines 171-191): prediction and target_embed are
permuted channel-last and flattened to one row per (batch, h, w) position; if
the mask selects at least one row, F.mse_loss(..., size_average=True) averages
the squared differences over all (row, channel) elements of the masked rows,
i.e. divides by mask_size * c; otherwise the scalar 0.0 is returned. -/
def mse_loss {n c h w : ℕ} (prediction : Fin n → Fin c → Fin h → Fin w → ℝ)
    (target : Fin n → Fin h → Fin w → ℕ)
    (target_embed : Fin n → Fin c → Fin h → Fin w → ℝ) : Option ℝ :=
  if 0 < maskSize target then
    floatDiv
      (∑ i, ∑ j, ∑ k,
        if target i j k ≠ 255 then
          ∑ ch, (prediction i ch j k - target_embed i ch j k) ^ 2
        else 0)
      ((maskSize target : ℝ) * c)
  else some 0

end MSELoss_bis

namespace CosineLoss

/-- torch.norm(-, p=2, dim=1, keepdim=True) at one pixel: the l2 norm of the
channel vector. -/
def pixNorm {c : ℕ} (f : Fin c → ℝ) : ℝ :=
  Real.sqrt (∑ ch, f ch ^ 2)

/-- CosineLoss.cosine_loss (lines 200-227): score and target_embed are divided
per pixel by their channel l2 norms, the pixel mask is repeated across
channels, and the loss is (mask_size - sum of the masked products) divided by
mask_size.  The final division is the one the specification calls unguarded,
hence floatDiv; the per-pixel normalisations are plain divisions. -/
def cosine_loss {n c h w : ℕ} (score : Fin n → Fin c → Fin h → Fin w → ℝ)
    (target : Fin n → Fin h → Fin w → ℕ)
    (target_embed : Fin n → Fin c → Fin h → Fin w → ℝ) : Option ℝ :=
  floatDiv
    ((maskSize target : ℝ) -
      ∑ i, ∑ j, ∑ k,
        if target i j k ≠ 255 then
          ∑ ch,
            (score i ch j k / pixNorm (fun q => score i q j k)) *
              (target_embed i ch j k / pixNorm (fun q => target_embed i q j k))
        else 0)
    ((maskSize target : ℝ))

end CosineLoss

namespace CosineLoss_bis

/-- torch.min(-, dim=1, keepdim=True)[0] on one row: the least channel entry
(0 for an empty channel axis, which the source never produces). -/
def rowMin {c : ℕ} (f : Fin c → ℝ) : ℝ :=
  if h : 0 < c then
    Finset.univ.inf' (Finset.univ_nonempty_iff.mpr ⟨⟨0, h⟩⟩) f
  else 0

/-- F.normalize(-, p=2, dim=1) on one row, with its default eps=1e-12 guard:
the row divided by max(l2 norm, 1e-12). -/
def normalizeRow {c : ℕ} (f : Fin c → ℝ) (ch : Fin c) : ℝ :=
  f ch / max (Real.sqrt (∑ q, f q ^ 2)) 1e-12

/-- F.cosine_similarity(u, v, dim=1, eps=1e-8) on one row pair: the dot
product divided by the eps-clamped product of the l2 norms. -/
def cosSim {c : ℕ} (u v : Fin c → ℝ) : ℝ :=
  (∑ ch, u ch * v ch) /
    max (Real.sqrt (∑ q, u q ^ 2) * Real.sqrt (∑ q, v q ^ 2)) 1e-8

/-- CosineLoss_bis.cosine_loss (lines 235-257): rows are the channel-last
flattened pixels; if the mask selects at least one row, each masked row of
prediction and target_embed is shifted by its row minimum, l2-normalised, and
the mean over masked rows of (1 - cosine_similarity) is returned (the mean's
division by the positive row count via floatDiv); otherwise 0.0. -/
def cosine_loss {n c h w : ℕ} (prediction : Fin n → Fin c → Fin h → Fin w → ℝ)
    (target : Fin n → Fin h → Fin w → ℕ)
    (target_embed : Fin n → Fin c → Fin h → Fin w → ℝ) : Option ℝ :=
  if 0 < maskSize target then
    floatDiv
      (∑ i, ∑ j, ∑ k,
        if target i j k ≠ 255 then
          1 - cosSim
            (normalizeRow (fun q =>
              prediction i q j k - rowMin (fun r => prediction i r j k)))
            (normalizeRow (fun q =>
              target_embed i q j k - rowMin (fun r => target_embed i r j k)))
        else 0)
      ((maskSize target : ℝ))
  else some 0

end CosineLoss_bis

/-- A target tensor whose labels are all the ignore sentinel has mask sum 0. -/
lemma maskSize_eq_zero_of_all_ignored {n h w : ℕ}
    (target : Fin n → Fin h → Fin w → ℕ)
    (hall : ∀ i j k, target i j k = 255) : maskSize target = 0 := by
  unfold maskSize
  simp [hall]

/-- C1: FocalLoss with gamma=0 and alpha=None returns exactly the same scalar
as CrossEntropyLoss on the same inputs and configuration (same weight,
size_average and batch_average settings), in particular on targets free of the
ignore sentinel 255. -/
theorem focal_gamma0_alphaNone_eq_crossEntropy {c n h w : ℕ}
    (L : SegmentationLosses c) (logit : Fin n → Fin c → Fin h → Fin w → ℝ)
    (target : Fin n → Fin h → Fin w → ℕ) (hii : L.ignore_index = 255)
    (hnoig : ∀ i j k, target i j k ≠ 255) :
    SegmentationLosses.FocalLoss L logit target 0 none =
      SegmentationLosses.CrossEntropyLoss L logit target := by
  unfold SegmentationLosses.FocalLoss SegmentationLosses.CrossEntropyLoss
  cases hb : L.batch_average <;> simp

/-- Witness for C1 at a concrete configuration and concrete tensors. -/
theorem focal_gamma0_alphaNone_eq_crossEntropy_witness :
    SegmentationLosses.FocalLoss
        (⟨none, true, true, 255, false⟩ : SegmentationLosses 2)
        (fun (_ : Fin 1) (_ : Fin 2) (_ : Fin 1) (_ : Fin 1) => (0 : ℝ))
        (fun _ _ _ => 0) 0 none =
      SegmentationLosses.CrossEntropyLoss
        (⟨none, true, true, 255, false⟩ : SegmentationLosses 2)
        (fun (_ : Fin 1) (_ : Fin 2) (_ : Fin 1) (_ : Fin 1) => (0 : ℝ))
        (fun _ _ _ => 0) :=
  focal_gamma0_alphaNone_eq_crossEntropy _ _ _ rfl (by decide)

/-- C4: on an input whose target labels are all the ignore sentinel 255 (the
mask selects no pixel), MSELoss_bis.mse_loss and CosineLoss_bis.cosine_loss
both return the scalar 0.0 — a genuine value, not a non-finite result. -/
theorem bis_losses_empty_mask_return_zero {n c h w : ℕ}
    (prediction : Fin n → Fin c → Fin h → Fin w → ℝ)
    (target : Fin n → Fin h → Fin w → ℕ)
    (target_embed : Fin n → Fin c → Fin h → Fin w → ℝ)
    (hall : ∀ i j k, target i j k = 255) :
    MSELoss_bis.mse_loss prediction target target_embed = some 0 ∧
      CosineLoss_bis.cosine_loss prediction target target_embed = some 0 := by
  have hm := maskSize_eq_zero_of_all_ignored target hall
  constructor
  · unfold MSELoss_bis.mse_loss
    simp [hm]
  · unfold CosineLoss_bis.cosine_loss
    simp [hm]

/-- Witness for C4 at concrete all-ignored tensors. -/
theorem bis_losses_empty_mask_return_zero_witness :
    MSELoss_bis.mse_loss
        (fun (_ : Fin 1) (_ : Fin 2) (_ : Fin 1) (_ : Fin 1) => (3 : ℝ))
        (fun _ _ _ => 255) (fun _ _ _ _ => 7) = some 0 ∧
      CosineLoss_bis.cosine_loss
        (fun (_ : Fin 1) (_ : Fin 2) (_ : Fin 1) (_ : Fin 1) => (3 : ℝ))
        (fun _ _ _ => 255) (fun _ _ _ _ => 7) = some 0 :=
  bis_losses_empty_mask_return_zero _ _ _ (by decide)

/-- C5: on an input whose target labels are all the ignore sentinel 255, the
strict variants reach their final division with a zero masked-pixel count
(mask_size = 0) and no branch avoids it, so the division by zero happens:
both MSELoss.mse_loss and CosineLoss.cosine_loss yield the non-finite marker
none, in contrast to the guarded bis variants. -/
theorem strict_losses_empty_mask_divide_by_zero {n c h w : ℕ}
    (score : Fin n → Fin c → Fin h → Fin w → ℝ)
    (target : Fin n → Fin h → Fin w → ℕ)
    (target_embed : Fin n → Fin c → Fin h → Fin w → ℝ)
    (hall : ∀ i j k, target i j k = 255) :
    maskSize target = 0 ∧
      MSELoss.mse_loss score target target_embed = none ∧
        CosineLoss.cosine_loss score target target_embed = none := by
  have hm := maskSize_eq_zero_of_all_ignored target hall
  refine ⟨hm, ?_, ?_⟩
  · unfold MSELoss.mse_loss floatDiv
    simp [hm]
  · unfold CosineLoss.cosine_loss floatDiv
    simp [hm]

/-- Witness for C5 at concrete all-ignored tensors. -/
theorem strict_losses_empty_mask_divide_by_zero_witness :
    maskSize (fun (_ : Fin 1) (_ : Fin 1) (_ : Fin 1) => 255) = 0 ∧
      MSELoss.mse_loss
          (fun (_ : Fin 1) (_ : Fin 2) (_ : Fin 1) (_ : Fin 1) => (3 : ℝ))
          (fun _ _ _ => 255) (fun _ _ _ _ => 7) = none ∧
        CosineLoss.cosine_loss
          (fun (_ : Fin 1) (_ : Fin 2) (_ : Fin 1) (_ : Fin 1) => (3 : ℝ))
          (fun _ _ _ => 255) (fun _ _ _ _ => 7) = none :=
  strict_losses_empty_mask_divide_by_zero _ _ _ (by decide)

/-- C9: build_loss hands back the CrossEntropyLoss method for mode 'ce', the
FocalLoss method (run with its declared defaults gamma=2, alpha=0.5) for mode
'focal', the CrossEntropyLossFinetune method for mode 'ce_finetune', and fails
with NotImplementedError (none) for every other mode string. -/
theorem build_loss_selects_and_rejects :
    SegmentationLosses.build_loss "ce" = some SegmentationLosses.LossFn.ce ∧
      SegmentationLosses.build_loss "focal" =
          some SegmentationLosses.LossFn.focal ∧
        SegmentationLosses.build_loss "ce_finetune" =
            some SegmentationLosses.LossFn.ce_finetune ∧
          (∀ (c n h w : ℕ) (L : SegmentationLosses c)
              (logit : Fin n → Fin c → Fin h → Fin w → ℝ)
              (target : Fin n → Fin h → Fin w → ℕ),
            SegmentationLosses.applyLoss SegmentationLosses.LossFn.ce L
                logit target =
              SegmentationLosses.CrossEntropyLoss L logit target ∧
            SegmentationLosses.applyLoss SegmentationLosses.LossFn.focal L
                logit target =
              SegmentationLosses.FocalLoss L logit target 2 (some 0.5) ∧
            SegmentationLosses.applyLoss SegmentationLosses.LossFn.ce_finetune
                L logit target =
              SegmentationLosses.CrossEntropyLossFinetune L logit target) ∧
            ∀ mode : String, mode ≠ "ce" → mode ≠ "focal" →
              mode ≠ "ce_finetune" →
                SegmentationLosses.build_loss mode = none := by
  refine ⟨rfl, rfl, rfl, fun c n h w L logit target => ⟨rfl, rfl, rfl⟩,
    fun mode h1 h2 h3 => ?_⟩
  unfold SegmentationLosses.build_loss
  simp [h1, h2, h3]

/-- Witness for C9: an unrecognized mode string is rejected. -/
theorem build_loss_selects_and_rejects_witness :
    SegmentationLosses.build_loss "dice" = none :=
  build_loss_selects_and_rejects.2.2.2.2 "dice" (by decide) (by decide)
    (by decide)

/-- C10: with a mask selecting zero positions, EntropyLossMasked divides the
entropy sum by the zero selected-position count with no guard: the count is 0
and the result is the non-finite marker none, unlike the guarded bis
regression losses. -/
theorem entropyLossMasked_empty_mask_divides_by_zero {n c h w : ℕ}
    (v : Fin n → Fin c → Fin h → Fin w → ℝ)
    (mask : Fin n → Fin h → Fin w → Bool)
    (hall : ∀ i j k, mask i j k = false) :
    maskedCount mask = 0 ∧ EntropyLossMasked v mask = none := by
  have hm : maskedCount mask = 0 := by
    unfold maskedCount
    simp [hall]
  refine ⟨hm, ?_⟩
  unfold EntropyLossMasked floatDiv
  simp [hm]

/-- Pulling a sum out of a conditional whose condition does not depend on the
summation index. -/
lemma sum_ite_const {ι : Type} [Fintype ι] (P : Prop) [Decidable P]
    (f : ι → ℝ) : (∑ t, if P then f t else 0) = if P then ∑ t, f t else 0 := by
  by_cases hP : P <;> simp [hP]

/-- C2 counterexample, at one generated sample (M = 1) and two real samples
(N = 2): row 0 of the combined matrix X = cat(gen, real) is the generated
sample, yet its scale entry is +1/N = 1/2 and not the -1/M = -1 the claim
assigns to generated samples, and the S = s*s.t() entry at the
generated-generated position (0,0) is 1/4, not the claimed +1/M^2 = 1. -/
theorem scale_matrix_misaligned_counterexample :
    GMMNLoss.combinedX (fun (_ : Fin 1) (_ : Fin 1) => (7 : ℚ))
        (fun (_ : Fin 2) (_ : Fin 1) => 9) 0 0 = 7 ∧
      GMMNLoss.get_scale_matrix 1 2 0 = 1 / 2 ∧
        GMMNLoss.get_scale_matrix 1 2 0 ≠ -(1 / 1) ∧
          GMMNLoss.scaleS 1 2 0 0 ≠ 1 / ((1 : ℝ) * 1) := by
  refine ⟨by decide, ?_, ?_, ?_⟩
  · unfold GMMNLoss.get_scale_matrix
    norm_num
  · unfold GMMNLoss.get_scale_matrix
    norm_num
  · unfold GMMNLoss.scaleS GMMNLoss.get_scale_matrix
    norm_num

/-- C2 amended: X is cat(generated, real) with the M generated rows first; the
scale vector s carries +1/N on the first N positions and -1/M on the positions
from N on, so S = s*s.t() weights the position blocks [0,N)x[0,N), [N,_)x[N,_)
and the cross blocks by +1/N^2, +1/M^2 and -1/(N*M); these position blocks
coincide with the generated/real sample blocks of X only when M = N (the claim
read them as the real/generated blocks for every M and N). -/
theorem scale_matrix_positional (M N : ℕ) :
    (∀ (d : ℕ) (gen_samples : Fin M → Fin d → ℝ) (x : Fin N → Fin d → ℝ)
        (i : Fin M),
      GMMNLoss.combinedX gen_samples x (Fin.castAdd N i) = gen_samples i) ∧
    (∀ (d : ℕ) (gen_samples : Fin M → Fin d → ℝ) (x : Fin N → Fin d → ℝ)
        (j : Fin N),
      GMMNLoss.combinedX gen_samples x (Fin.natAdd M j) = x j) ∧
    (∀ i : ℕ, i < N → GMMNLoss.get_scale_matrix M N i = 1 / (N : ℚ)) ∧
    (∀ i : ℕ, N ≤ i → GMMNLoss.get_scale_matrix M N i = -(1 / (M : ℚ))) ∧
    (∀ a b : ℕ, a < N → b < N →
      GMMNLoss.get_scale_matrix M N a * GMMNLoss.get_scale_matrix M N b =
        1 / ((N : ℚ) * N)) ∧
    (∀ a b : ℕ, N ≤ a → N ≤ b →
      GMMNLoss.get_scale_matrix M N a * GMMNLoss.get_scale_matrix M N b =
        1 / ((M : ℚ) * M)) ∧
    (∀ a b : ℕ, a < N → N ≤ b →
      GMMNLoss.get_scale_matrix M N a * GMMNLoss.get_scale_matrix M N b =
        -(1 / ((N : ℚ) * M))) := by
  unfold GMMNLoss.combinedX GMMNLoss.get_scale_matrix
  refine ⟨fun d g x i => Fin.append_left g x i,
    fun d g x j => Fin.append_right g x j,
    fun i hi => if_pos hi,
    fun i hi => if_neg (Nat.not_lt.mpr hi),
    fun a b ha hb => ?_, fun a b ha hb => ?_, fun a b ha hb => ?_⟩
  · rw [if_pos ha, if_pos hb, div_mul_div_comm, one_mul]
  · rw [if_neg (Nat.not_lt.mpr ha), if_neg (Nat.not_lt.mpr hb), neg_mul_neg,
      div_mul_div_comm, one_mul]
  · rw [if_pos ha, if_neg (Nat.not_lt.mpr hb), mul_neg, div_mul_div_comm,
      one_mul]

/-- Witness for the amended C2 at M = 1, N = 2. -/
theorem scale_matrix_positional_witness :
    GMMNLoss.combinedX (fun (_ : Fin 1) (_ : Fin 1) => (7 : ℝ))
        (fun (_ : Fin 2) (_ : Fin 1) => 9) (Fin.castAdd 2 0) =
      (fun (_ : Fin 1) => (7 : ℝ)) ∧
      GMMNLoss.get_scale_matrix 1 2 0 = 1 / 2 ∧
        GMMNLoss.get_scale_matrix 1 2 2 = -(1 / 1) ∧
          GMMNLoss.get_scale_matrix 1 2 0 * GMMNLoss.get_scale_matrix 1 2 2 =
            -(1 / ((2 : ℚ) * 1)) :=
  ⟨(scale_matrix_positional 1 2).1 1 _ _ 0,
    by
      have h := (scale_matrix_positional 1 2).2.2.1 0 (by decide)
      simpa using h,
    by
      have h := (scale_matrix_positional 1 2).2.2.2.1 2 (by decide)
      simpa using h,
    (scale_matrix_positional 1 2).2.2.2.2.2.2 0 2 (by decide) (by decide)⟩

/-- When the generated and real batches are the same matrix X, the signed
scale weights cancel the kernel sum exactly, for any kernel function of the
two rows. -/
lemma gmmn_scale_cancel {n d : ℕ} (X : Fin n → Fin d → ℝ)
    (k : (Fin d → ℝ) → (Fin d → ℝ) → ℝ) :
    ∑ a : Fin (n + n), ∑ b : Fin (n + n),
      ((GMMNLoss.get_scale_matrix n n a : ℚ) : ℝ) *
          ((GMMNLoss.get_scale_matrix n n b : ℚ) : ℝ) *
        k (GMMNLoss.combinedX X X a) (GMMNLoss.combinedX X X b) = 0 := by
  set s : Fin (n + n) → ℝ :=
    fun a => ((GMMNLoss.get_scale_matrix n n a : ℚ) : ℝ) with hs
  have hsc : ∀ i : Fin n, s (Fin.castAdd n i) = 1 / (n : ℝ) := by
    intro i
    show ((GMMNLoss.get_scale_matrix n n
        ((Fin.castAdd n i : Fin (n + n)) : ℕ) : ℚ) : ℝ) = 1 / (n : ℝ)
    rw [Fin.coe_castAdd]
    unfold GMMNLoss.get_scale_matrix
    rw [if_pos i.isLt]
    push_cast
    rfl
  have hsn : ∀ i : Fin n, s (Fin.natAdd n i) = -(1 / (n : ℝ)) := by
    intro i
    show ((GMMNLoss.get_scale_matrix n n
        ((Fin.natAdd n i : Fin (n + n)) : ℕ) : ℚ) : ℝ) = -(1 / (n : ℝ))
    rw [Fin.coe_natAdd]
    unfold GMMNLoss.get_scale_matrix
    rw [if_neg (by omega)]
    push_cast
    rfl
  have hXc : ∀ i : Fin n, GMMNLoss.combinedX X X (Fin.castAdd n i) = X i :=
    Fin.append_left X X
  have hXn : ∀ i : Fin n, GMMNLoss.combinedX X X (Fin.natAdd n i) = X i :=
    Fin.append_right X X
  have hinner : ∀ u : Fin d → ℝ,
      ∑ b : Fin (n + n), s b * k u (GMMNLoss.combinedX X X b) = 0 := by
    intro u
    rw [Fin.sum_univ_add]
    rw [Finset.sum_congr rfl
      (fun i _ => by rw [hsc i, hXc i] :
        ∀ i ∈ Finset.univ, s (Fin.castAdd n i) *
            k u (GMMNLoss.combinedX X X (Fin.castAdd n i)) =
          1 / (n : ℝ) * k u (X i))]
    rw [Finset.sum_congr rfl
      (fun i _ => by rw [hsn i, hXn i] :
        ∀ i ∈ Finset.univ, s (Fin.natAdd n i) *
            k u (GMMNLoss.combinedX X X (Fin.natAdd n i)) =
          -(1 / (n : ℝ)) * k u (X i))]
    rw [← Finset.sum_add_distrib]
    exact Finset.sum_eq_zero (fun i _ => by ring)
  calc
    ∑ a : Fin (n + n), ∑ b : Fin (n + n),
        s a * s b * k (GMMNLoss.combinedX X X a) (GMMNLoss.combinedX X X b)
      = ∑ a : Fin (n + n),
          s a * ∑ b : Fin (n + n),
            s b * k (GMMNLoss.combinedX X X a) (GMMNLoss.combinedX X X b) := by
        refine Finset.sum_congr rfl (fun a _ => ?_)
        rw [Finset.mul_sum]
        exact Finset.sum_congr rfl (fun b _ => by ring)
    _ = 0 := by
        refine Finset.sum_eq_zero (fun a _ => ?_)
        rw [hinner, mul_zero]

/-- C6: moment_loss with identical generated and real samples is exactly 0:
for each bandwidth v of the configured sigma list the accumulated sum
sum(S * exp(score/v)) cancels, and sqrt 0 = 0. -/
theorem moment_loss_self_eq_zero (G : GMMNLoss) {n d : ℕ}
    (X : Fin n → Fin d → ℝ) : GMMNLoss.moment_loss G X X = 0 := by
  unfold GMMNLoss.moment_loss
  have h0 : (G.sigma.map (fun v =>
      ∑ a, ∑ b,
        GMMNLoss.scaleS n n a b *
          Real.exp (GMMNLoss.expScore X X a b / v))).sum = 0 := by
    apply List.sum_eq_zero
    intro y hy
    rw [List.mem_map] at hy
    obtain ⟨v, hv, rfl⟩ := hy
    have h := gmmn_scale_cancel X (fun u1 u2 =>
      Real.exp ((((∑ t, u1 t * u2 t) - 0.5 * ∑ t, u1 t * u1 t) -
        0.5 * ∑ t, u2 t * u2 t) / v))
    simpa [GMMNLoss.scaleS, GMMNLoss.expScore] using h
  rw [h0, Real.sqrt_zero]

/-- C3: with a non-empty mask, the strict MSE equals the masked sum of squared
differences over all (pixel, channel) elements divided by the raw masked pixel
count, the bis MSE equals the same sum divided by (masked pixel count) * c
(the count of masked (pixel, channel) pairs of the flattened view), and hence
the strict value is exactly c times the bis value. -/
theorem mse_strict_vs_bis {n c h w : ℕ}
    (score : Fin n → Fin c → Fin h → Fin w → ℝ)
    (target : Fin n → Fin h → Fin w → ℕ)
    (target_embed : Fin n → Fin c → Fin h → Fin w → ℝ)
    (hmask : 0 < maskSize target) (hc : 0 < c) :
    MSELoss.mse_loss score target target_embed =
      some ((∑ i, ∑ j, ∑ k,
          if target i j k ≠ 255 then
            ∑ ch, (score i ch j k - target_embed i ch j k) ^ 2
          else 0) / (maskSize target : ℝ)) ∧
    MSELoss_bis.mse_loss score target target_embed =
      some ((∑ i, ∑ j, ∑ k,
          if target i j k ≠ 255 then
            ∑ ch, (score i ch j k - target_embed i ch j k) ^ 2
          else 0) / ((maskSize target : ℝ) * c)) ∧
    (∑ i, ∑ j, ∑ k,
        if target i j k ≠ 255 then
          ∑ ch, (score i ch j k - target_embed i ch j k) ^ 2
        else 0) / (maskSize target : ℝ) =
      c * ((∑ i, ∑ j, ∑ k,
          if target i j k ≠ 255 then
            ∑ ch, (score i ch j k - target_embed i ch j k) ^ 2
          else 0) / ((maskSize target : ℝ) * c)) := by
  have hms : (maskSize target : ℝ) ≠ 0 :=
    ne_of_gt (by exact_mod_cast hmask)
  have hcr : (c : ℝ) ≠ 0 := ne_of_gt (by exact_mod_cast hc)
  refine ⟨?_, ?_, ?_⟩
  · unfold MSELoss.mse_loss floatDiv
    rw [if_neg hms]
    congr 1
    apply congrArg (fun z => z / (maskSize target : ℝ))
    apply Finset.sum_congr rfl
    intro i _
    rw [Finset.sum_comm]
    apply Finset.sum_congr rfl
    intro j _
    rw [Finset.sum_comm]
    apply Finset.sum_congr rfl
    intro k _
    exact sum_ite_const _ _
  · unfold MSELoss_bis.mse_loss floatDiv
    rw [if_pos hmask, if_neg (mul_ne_zero hms hcr)]
  · field_simp
    ring

/-- Witness for C3 at concrete tensors with one unmasked pixel. -/
theorem mse_strict_vs_bis_witness :
    MSELoss.mse_loss
        (fun (_ : Fin 1) (_ : Fin 2) (_ : Fin 1) (_ : Fin 1) => (3 : ℝ))
        (fun _ _ _ => 0) (fun _ _ _ _ => 1) =
      some ((∑ i : Fin 1, ∑ j : Fin 1, ∑ k : Fin 1,
          if (0 : ℕ) ≠ 255 then
            ∑ _ch : Fin 2, ((3 : ℝ) - 1) ^ 2
          else 0) / (maskSize (fun (_ : Fin 1) (_ : Fin 1) (_ : Fin 1) =>
            (0 : ℕ)) : ℝ)) := by
  have h := mse_strict_vs_bis
    (fun (_ : Fin 1) (_ : Fin 2) (_ : Fin 1) (_ : Fin 1) => (3 : ℝ))
    (fun _ _ _ => 0) (fun _ _ _ _ => 1) (by decide) (by decide)
  exact h.1

/-- The softmax entries are positive. -/
lemma softmax_pos {c : ℕ} (hc : 0 < c) (f : Fin c → ℝ) (i : Fin c) :
    0 < softmax f i := by
  unfold softmax
  refine div_pos (Real.exp_pos _) (Finset.sum_pos (fun j _ => Real.exp_pos _)
    ?_)
  exact Finset.univ_nonempty_iff.mpr ⟨⟨0, hc⟩⟩

/-- The softmax entries of one pixel sum to 1. -/
lemma softmax_sum_eq_one {c : ℕ} (hc : 0 < c) (f : Fin c → ℝ) :
    ∑ i, softmax f i = 1 := by
  unfold softmax
  rw [← Finset.sum_div]
  refine div_self (ne_of_gt (Finset.sum_pos (fun j _ => Real.exp_pos _) ?_))
  exact Finset.univ_nonempty_iff.mpr ⟨⟨0, hc⟩⟩

/-- Each softmax entry is at most 1. -/
lemma softmax_le_one {c : ℕ} (hc : 0 < c) (f : Fin c → ℝ) (i : Fin c) :
    softmax f i ≤ 1 := by
  have hsum := softmax_sum_eq_one hc f
  have hle : softmax f i ≤ ∑ j, softmax f j :=
    Finset.single_le_sum (fun j _ => le_of_lt (softmax_pos hc f j))
      (Finset.mem_univ i)
  linarith

/-- Gibbs inequality in natural log: a positive probability vector over c
classes has entropy at most log c. -/
lemma gibbs_ln {c : ℕ} (hc : 0 < c) (p : Fin c → ℝ) (hp : ∀ i, 0 < p i)
    (hs : ∑ i, p i = 1) : -Real.log c ≤ ∑ i, p i * Real.log (p i) := by
  have hcR : (0 : ℝ) < c := by exact_mod_cast hc
  have key : 0 ≤ ∑ i, p i * Real.log ((c : ℝ) * p i) := by
    have hterm : ∀ i, -(p i * Real.log ((c : ℝ) * p i)) ≤ 1 / c - p i := by
      intro i
      have hcp : 0 < (c : ℝ) * p i := mul_pos hcR (hp i)
      have hlog := Real.log_le_sub_one_of_pos (inv_pos.mpr hcp)
      rw [Real.log_inv] at hlog
      have hmul := mul_le_mul_of_nonneg_left hlog (le_of_lt (hp i))
      calc -(p i * Real.log ((c : ℝ) * p i))
          = p i * -Real.log ((c : ℝ) * p i) := by ring
        _ ≤ p i * (((c : ℝ) * p i)⁻¹ - 1) := hmul
        _ = 1 / c - p i := by
            field_simp
            ring
    have hsum : ∑ i, -(p i * Real.log ((c : ℝ) * p i)) ≤
        ∑ i, (1 / (c : ℝ) - p i) :=
      Finset.sum_le_sum (fun i _ => hterm i)
    rw [Finset.sum_neg_distrib] at hsum
    have hzero : ∑ _i : Fin c, (1 / (c : ℝ) - p _i) = 0 := by
      rw [Finset.sum_sub_distrib, hs, Finset.sum_const, Finset.card_univ,
        Fintype.card_fin, nsmul_eq_mul]
      field_simp
    rw [hzero] at hsum
    linarith
  have hexp : ∑ i, p i * Real.log ((c : ℝ) * p i) =
      Real.log c + ∑ i, p i * Real.log (p i) := by
    rw [Finset.sum_congr rfl (fun i _ => by
      rw [Real.log_mul (ne_of_gt hcR) (ne_of_gt (hp i))]
      ring :
      ∀ i ∈ Finset.univ, p i * Real.log ((c : ℝ) * p i) =
        p i * Real.log c + p i * Real.log (p i))]
    rw [Finset.sum_add_distrib, ← Finset.sum_mul, hs, one_mul]
  linarith [key, hexp]

/-- The base-2 logarithm of a class count of at least 2 is positive. -/
lemma log2_pos_of_two_le {c : ℕ} (hc : 2 ≤ c) : 0 < log2 c := by
  unfold log2
  exact div_pos (Real.log_pos (by exact_mod_cast hc))
    (Real.log_pos one_lt_two)

/-- The base-2 logarithm is monotone on positives. -/
lemma log2_le_log2 {x y : ℝ} (hx : 0 < x) (hxy : x ≤ y) : log2 x ≤ log2 y := by
  unfold log2
  exact (div_le_div_right (Real.log_pos one_lt_two)).mpr
    (Real.log_le_log hx hxy)

/-- One pixel's floored base-2 entropy sum is at least -log2 c: the floored
term dominates the unfloored one, and Gibbs bounds the plain entropy. -/
lemma pixel_entropy_lower {c : ℕ} (hc : 0 < c) (f : Fin c → ℝ) :
    -log2 c ≤ ∑ ch, softmax f ch * log2 (softmax f ch + 1e-30) := by
  have hlog2 : 0 < Real.log 2 := Real.log_pos one_lt_two
  have hgibbs : -log2 c ≤ ∑ ch, softmax f ch * log2 (softmax f ch) := by
    have h := gibbs_ln hc (softmax f) (softmax_pos hc f)
      (softmax_sum_eq_one hc f)
    unfold log2
    rw [show (∑ ch, softmax f ch * (Real.log (softmax f ch) / Real.log 2)) =
        (∑ ch, softmax f ch * Real.log (softmax f ch)) / Real.log 2 from by
      rw [Finset.sum_div]
      exact Finset.sum_congr rfl (fun ch _ => by ring)]
    rw [← neg_div]
    exact (div_le_div_right hlog2).mpr h
  refine le_trans hgibbs (Finset.sum_le_sum (fun ch _ => ?_))
  exact mul_le_mul_of_nonneg_left
    (log2_le_log2 (softmax_pos hc f ch) (by norm_num))
    (le_of_lt (softmax_pos hc f ch))

/-- One pixel's floored base-2 entropy term is at most log2 (1 + 1e-30): the
floor can push a near-one probability's logarithm slightly above zero, but by
no more than that. -/
lemma pixel_entropy_upper {c : ℕ} (hc : 0 < c) (f : Fin c → ℝ) (ch : Fin c) :
    softmax f ch * log2 (softmax f ch + 1e-30) ≤ log2 (1 + 1e-30) := by
  have hp := softmax_pos hc f ch
  have hp1 := softmax_le_one hc f ch
  have hmono : log2 (softmax f ch + 1e-30) ≤ log2 (1 + 1e-30) :=
    log2_le_log2 (by linarith) (by linarith)
  have h0 : 0 ≤ log2 (1 + 1e-30) := by
    unfold log2
    exact div_nonneg (Real.log_nonneg (by norm_num))
      (le_of_lt (Real.log_pos one_lt_two))
  by_cases hsign : 0 ≤ log2 (softmax f ch + 1e-30)
  · calc softmax f ch * log2 (softmax f ch + 1e-30)
        ≤ 1 * log2 (softmax f ch + 1e-30) :=
          mul_le_mul_of_nonneg_right hp1 hsign
      _ ≤ log2 (1 + 1e-30) := by rw [one_mul]; exact hmono
  · push_neg at hsign
    exact le_trans (le_of_lt (mul_neg_of_pos_of_neg hp hsign)) h0

/-- Moving the channel sum of a rank-4 elementwise sum innermost. -/
lemma sum4_reorder {n c h w : ℕ} (E : Fin n → Fin c → Fin h → Fin w → ℝ) :
    ∑ i, ∑ ch, ∑ j, ∑ k, E i ch j k = ∑ i, ∑ j, ∑ k, ∑ ch, E i ch j k := by
  refine Finset.sum_congr rfl (fun i _ => ?_)
  calc
    ∑ ch, ∑ j, ∑ k, E i ch j k = ∑ j, ∑ ch, ∑ k, E i ch j k :=
      Finset.sum_comm
    _ = ∑ j, ∑ k, ∑ ch, E i ch j k :=
      Finset.sum_congr rfl (fun j _ => Finset.sum_comm)

/-- A triple sum bounded above termwise by a constant. -/
lemma triple_sum_le_const {n h w : ℕ} (F : Fin n → Fin h → Fin w → ℝ)
    (B : ℝ) (hB : ∀ i j k, F i j k ≤ B) :
    ∑ i, ∑ j, ∑ k, F i j k ≤ ((n : ℝ) * h * w) * B := by
  calc
    ∑ i, ∑ j, ∑ k, F i j k ≤ ∑ _i : Fin n, ∑ _j : Fin h, ∑ _k : Fin w, B :=
      Finset.sum_le_sum (fun i _ => Finset.sum_le_sum (fun j _ =>
        Finset.sum_le_sum (fun k _ => hB i j k)))
    _ = ((n : ℝ) * h * w) * B := by
      simp [Finset.sum_const, Finset.card_univ]
      ring

/-- A triple sum bounded below termwise by a constant. -/
lemma const_le_triple_sum {n h w : ℕ} (F : Fin n → Fin h → Fin w → ℝ)
    (B : ℝ) (hB : ∀ i j k, B ≤ F i j k) :
    ((n : ℝ) * h * w) * B ≤ ∑ i, ∑ j, ∑ k, F i j k := by
  calc
    ((n : ℝ) * h * w) * B = ∑ _i : Fin n, ∑ _j : Fin h, ∑ _k : Fin w, B := by
      simp [Finset.sum_const, Finset.card_univ]
      ring
    _ ≤ ∑ i, ∑ j, ∑ k, F i j k :=
      Finset.sum_le_sum (fun i _ => Finset.sum_le_sum (fun j _ =>
        Finset.sum_le_sum (fun k _ => hB i j k)))

/-- C7 amended: for non-degenerate shapes (c at least 2, non-empty batch and
spatial dimensions) EntropyLoss is at most 1, and at least
-(c * log2 (1 + 1e-30)) / log2 c: the 1e-30 floor added before the logarithm
can push the result below 0, but by no more than that epsilon-sized amount
(the claim said the result always lies in [0, 1]). -/
theorem entropyLoss_range {n c h w : ℕ}
    (v : Fin n → Fin c → Fin h → Fin w → ℝ)
    (hn : 0 < n) (hh : 0 < h) (hw : 0 < w) (hc : 2 ≤ c) :
    -((c : ℝ) * log2 (1 + 1e-30)) / log2 c ≤ EntropyLoss v ∧
      EntropyLoss v ≤ 1 := by
  have hc0 : 0 < c := lt_of_lt_of_le two_pos hc
  have hLc : 0 < log2 c := log2_pos_of_two_le hc
  have hD : 0 < (n : ℝ) * h * w * log2 c := by
    have hn' : (0 : ℝ) < n := by exact_mod_cast hn
    have hh' : (0 : ℝ) < h := by exact_mod_cast hh
    have hw' : (0 : ℝ) < w := by exact_mod_cast hw
    exact mul_pos (mul_pos (mul_pos hn' hh') hw') hLc
  have hreorder := sum4_reorder (fun i ch j k =>
    softmax (fun q => v i q j k) ch *
      log2 (softmax (fun q => v i q j k) ch + 1e-30))
  have hS_lo : ((n : ℝ) * h * w) * (-log2 c) ≤
      ∑ i, ∑ j, ∑ k, ∑ ch,
        softmax (fun q => v i q j k) ch *
          log2 (softmax (fun q => v i q j k) ch + 1e-30) :=
    const_le_triple_sum _ _ (fun i j k => pixel_entropy_lower hc0 _)
  have hS_up : (∑ i, ∑ j, ∑ k, ∑ ch,
      softmax (fun q => v i q j k) ch *
        log2 (softmax (fun q => v i q j k) ch + 1e-30)) ≤
      ((n : ℝ) * h * w) * ((c : ℝ) * log2 (1 + 1e-30)) := by
    refine triple_sum_le_const _ _ (fun i j k => ?_)
    calc
      (∑ ch, softmax (fun q => v i q j k) ch *
          log2 (softmax (fun q => v i q j k) ch + 1e-30)) ≤
          ∑ _ch : Fin c, log2 (1 + 1e-30) :=
        Finset.sum_le_sum (fun ch _ => pixel_entropy_upper hc0 _ ch)
      _ = (c : ℝ) * log2 (1 + 1e-30) := by
        simp [Finset.sum_const, Finset.card_univ]
  unfold EntropyLoss
  rw [hreorder]
  constructor
  · rw [div_le_div_iff hLc hD]
    nlinarith [mul_le_mul_of_nonneg_right hS_up (le_of_lt hLc)]
  · rw [div_le_one hD]
    nlinarith [hS_lo]

/-- Witness for the amended C7 at a concrete 1x2x1x1 tensor. -/
theorem entropyLoss_range_witness :
    -((2 : ℝ) * log2 (1 + 1e-30)) / log2 2 ≤
        EntropyLoss
          (fun (_ : Fin 1) (_ : Fin 2) (_ : Fin 1) (_ : Fin 1) => (0 : ℝ)) ∧
      EntropyLoss
          (fun (_ : Fin 1) (_ : Fin 2) (_ : Fin 1) (_ : Fin 1) => (0 : ℝ)) ≤
        1 := by
  have h := entropyLoss_range
    (fun (_ : Fin 1) (_ : Fin 2) (_ : Fin 1) (_ : Fin 1) => (0 : ℝ))
    (by decide) (by decide) (by decide) (by decide)
  exact_mod_cast h

/-- C7 counterexample: on the 1x2x1x1 input with channel logits (1000, 0) the
returned scalar is negative, so it does not lie in [0, 1].  The softmax
probability of channel 0 is within exp(-1000) of 1, so adding the 1e-30 floor
pushes its logarithm above zero by roughly 1e-30/ln 2, which outweighs the
vanishing exp(-1000)-sized entropy contribution of channel 1. -/
theorem entropyLoss_can_go_negative :
    EntropyLoss (fun (_ : Fin 1) (ch : Fin 2) (_ : Fin 1) (_ : Fin 1) =>
      if ch = 0 then (1000 : ℝ) else 0) < 0 := by
  unfold EntropyLoss softmax
  simp only [Fin.sum_univ_one, Fin.sum_univ_two]
  norm_num [Real.exp_zero]
  have hlog2pos : (0 : ℝ) < Real.log 2 := Real.log_pos one_lt_two
  have hA : (10 : ℝ) ^ 300 ≤ Real.exp 1000 := by
    have h2e : (2 : ℝ) ≤ Real.exp 1 := by
      have := Real.add_one_le_exp 1
      linarith
    have h1 : (10 : ℝ) ^ 300 ≤ (2 : ℝ) ^ 1000 := by norm_num
    have h2 : (2 : ℝ) ^ 1000 ≤ Real.exp 1 ^ 1000 :=
      pow_le_pow_left (by norm_num) h2e 1000
    have h3 : Real.exp 1 ^ 1000 = Real.exp 1000 := by
      rw [← Real.exp_nat_mul]
      norm_num
    linarith
  have hA1 : (0 : ℝ) < Real.exp 1000 + 1 := by positivity
  set q : ℝ := (Real.exp 1000 + 1)⁻¹ with hq
  set p : ℝ := Real.exp 1000 / (Real.exp 1000 + 1) with hp
  set ε : ℝ := 1 / 1000000000000000000000000000000 with hε
  have hq_pos : 0 < q := by
    rw [hq]
    positivity
  have hq_small : q ≤ 1 / (10 : ℝ) ^ 300 := by
    rw [hq, inv_eq_one_div]
    exact one_div_le_one_div_of_le (by positivity) (by linarith)
  have hpq : p = 1 - q := by
    rw [hp, hq]
    field_simp
  have hp_half : 1 / 2 ≤ p := by
    have h5 : q ≤ 1 / 2 := le_trans hq_small (by norm_num)
    rw [hpq]
    linarith
  have hp_le_one : p ≤ 1 := by
    rw [hpq]
    linarith
  have hx0 : (1 : ℝ) + 5 / 10 ^ 31 ≤ p + ε := by
    have h5 : q ≤ 5 / (10 : ℝ) ^ 31 := le_trans hq_small (by norm_num)
    rw [hpq, hε]
    have h6 : (5 : ℝ) / 10 ^ 31 + 5 / 10 ^ 31 ≤ 1 / 1000000000000000000000000000000 := by
      norm_num
    linarith
  have hlogp : (4 : ℝ) / 10 ^ 31 ≤ Real.log (p + ε) := by
    have h1 : Real.log (1 + 5 / 10 ^ 31) ≤ Real.log (p + ε) :=
      Real.log_le_log (by norm_num) hx0
    have h3 := Real.log_le_sub_one_of_pos
      (show (0 : ℝ) < ((1 : ℝ) + 5 / 10 ^ 31)⁻¹ by norm_num)
    rw [Real.log_inv] at h3
    have h4 : (4 : ℝ) / 10 ^ 31 ≤ 1 - ((1 : ℝ) + 5 / 10 ^ 31)⁻¹ := by
      rw [inv_eq_one_div]
      rw [div_le_iff (by norm_num : (0:ℝ) < 10 ^ 31)] at *
      norm_num
    linarith
  have hterm0 : (2 : ℝ) / 10 ^ 31 ≤ p * Real.log (p + ε) := by
    have h1 : (1 / 2 : ℝ) * (4 / 10 ^ 31) ≤ p * Real.log (p + ε) :=
      mul_le_mul hp_half hlogp (by norm_num) (by linarith)
    linarith
  have hεle : ((2 : ℝ) ^ 120)⁻¹ ≤ ε := by
    rw [hε]
    norm_num
  have hlogq_lb : -(84 : ℝ) ≤ Real.log (q + ε) := by
    have h1 : ((2 : ℝ) ^ 120)⁻¹ ≤ q + ε := by linarith
    have h2 : Real.log (((2 : ℝ) ^ 120)⁻¹) ≤ Real.log (q + ε) :=
      Real.log_le_log (by positivity) h1
    rw [Real.log_inv, Real.log_pow] at h2
    have h3 : Real.log 2 < 0.6931471808 := Real.log_two_lt_d9
    push_cast at h2
    linarith
  have hterm1 : -(84 / (10 : ℝ) ^ 300) ≤ q * Real.log (q + ε) := by
    have h1 : q * (-(84 : ℝ)) ≤ q * Real.log (q + ε) :=
      mul_le_mul_of_nonneg_left hlogq_lb (le_of_lt hq_pos)
    nlinarith [hq_small]
  have hT : 0 < q * Real.log (q + ε) + p * Real.log (p + ε) := by
    have h1 : (84 : ℝ) / 10 ^ 300 < 2 / 10 ^ 31 := by norm_num
    linarith
  have hlog2_2 : log2 2 = 1 := div_self (ne_of_gt hlog2pos)
  rw [hlog2_2, div_one]
  unfold log2
  have heq : q * (Real.log (q + ε) / Real.log 2) +
      p * (Real.log (p + ε) / Real.log 2) =
      (q * Real.log (q + ε) + p * Real.log (p + ε)) / Real.log 2 := by
    ring
  have hpos2 : 0 < (q * Real.log (q + ε) + p * Real.log (p + ε)) /
      Real.log 2 := div_pos hT hlog2pos
  linarith [hpos2, heq]

/-- C8: EntropyLossMasked with a mask selecting every (batch, h, w) position
equals EntropyLoss on the same tensor: the selected-position count is
n * h * w, so the normalisation divisors coincide. -/
theorem entropyLossMasked_full_mask_eq_entropyLoss {n c h w : ℕ}
    (v : Fin n → Fin c → Fin h → Fin w → ℝ)
    (mask : Fin n → Fin h → Fin w → Bool)
    (hall : ∀ i j k, mask i j k = true)
    (hn : 0 < n) (hh : 0 < h) (hw : 0 < w) (hc : 2 ≤ c) :
    EntropyLossMasked v mask = some (EntropyLoss v) := by
  have hcount : maskedCount mask = n * h * w := by
    unfold maskedCount
    simp [hall]
    ring
  have hpos : (0 : ℝ) < ((n * h * w : ℕ) : ℝ) * log2 c := by
    apply mul_pos _ (log2_pos_of_two_le hc)
    exact_mod_cast Nat.pos_of_ne_zero (by positivity)
  unfold EntropyLossMasked floatDiv
  rw [hcount, if_neg (ne_of_gt hpos)]
  unfold EntropyLoss
  congr 1
  have hsum : (∑ i, ∑ j, ∑ k,
      if mask i j k then
        ∑ ch, softmax (fun q => v i q j k) ch *
          log2 (softmax (fun q => v i q j k) ch + 1e-30)
      else 0) =
      ∑ i, ∑ ch, ∑ j, ∑ k,
        softmax (fun q => v i q j k) ch *
          log2 (softmax (fun q => v i q j k) ch + 1e-30) := by
    refine Finset.sum_congr rfl (fun i _ => ?_)
    calc
      (∑ j, ∑ k,
          if mask i j k then
            ∑ ch, softmax (fun q => v i q j k) ch *
              log2 (softmax (fun q => v i q j k) ch + 1e-30)
          else 0) =
          ∑ j, ∑ k, ∑ ch,
            softmax (fun q => v i q j k) ch *
              log2 (softmax (fun q => v i q j k) ch + 1e-30) := by
        simp [hall]
      _ = ∑ j, ∑ ch, ∑ k,
            softmax (fun q => v i q j k) ch *
              log2 (softmax (fun q => v i q j k) ch + 1e-30) :=
        Finset.sum_congr rfl (fun j _ => Finset.sum_comm)
      _ = ∑ ch, ∑ j, ∑ k,
            softmax (fun q => v i q j k) ch *
              log2 (softmax (fun q => v i q j k) ch + 1e-30) :=
        Finset.sum_comm
  rw [hsum]
  push_cast
  ring

/-- Witness for C8 at a concrete tensor and the all-true mask. -/
theorem entropyLossMasked_full_mask_eq_entropyLoss_witness :
    EntropyLossMasked
        (fun (_ : Fin 1) (_ : Fin 2) (_ : Fin 1) (_ : Fin 1) => (5 : ℝ))
        (fun _ _ _ => true) =
      some (EntropyLoss
        (fun (_ : Fin 1) (_ : Fin 2) (_ : Fin 1) (_ : Fin 1) => (5 : ℝ))) :=
  entropyLossMasked_full_mask_eq_entropyLoss _ _ (by decide) (by decide)
    (by decide) (by decide) (by decide)

/-- Witness for C10 at a concrete tensor and the all-false mask. -/
theorem entropyLossMasked_empty_mask_divides_by_zero_witness :
    maskedCount (fun (_ : Fin 1) (_ : Fin 1) (_ : Fin 1) => false) = 0 ∧
      EntropyLossMasked
        (fun (_ : Fin 1) (_ : Fin 2) (_ : Fin 1) (_ : Fin 1) => (5 : ℝ))
        (fun _ _ _ => false) = none :=
  entropyLossMasked_empty_mask_divides_by_zero _ _ (by decide)

end



